import Mathlib

/-!
Verification of the build-file parsing subsystem of the apache-ant-manager
extension (`AntParserService` in `src/services/AntParserService.ts`, shared
types in `src/types/antTypes.ts`).

The embedding models:
* the regex-based fallback XML parser (`parseWithXml` / `parseXmlFile`),
  including its scanning regexes, import resolution and first-definition-wins
  target merge;
* Node's `path.resolve` / `path.dirname` / `path.isAbsolute` (posix rules,
  with the process working directory fixed to "/": every path the theorems
  use is absolute, for which the working directory is irrelevant);
* the parse cache and the two-tier facade `parseBuildFile`, with the Java
  subprocess tier represented by an oracle describing the spawn outcome and
  the JSON decoder.

The file system is a finite association list from absolute path strings to
file contents.  JavaScript string primitives used by the source
(`String.prototype.split`, `trim`, the `\s` class, case-insensitive regex
matching) are modelled for ASCII input, which is the domain the scanning
regexes operate on.

The recursive walk over imports is expressed with explicit fuel; a
stabilisation theorem shows the result is independent of the fuel once it
exceeds the number of files, which is the shallow-embedding rendering of
termination of the TypeScript recursion.
-/

namespace AntManager

/-- Double-quote character, written by code point to keep quoting readable. -/
def quoteD : Char := Char.ofNat 34

/-- Single-quote character, written by code point to keep quoting readable. -/
def quoteS : Char := Char.ofNat 39

/-- ASCII lowercasing, used to model the `i` (case-insensitive) regex flag. -/
def lowerAscii (c : Char) : Char :=
  if 65 ≤ c.toNat ∧ c.toNat ≤ 90 then Char.ofNat (c.toNat + 32) else c

/-- The JavaScript `\s` character class, restricted to ASCII. -/
def isSpaceJS (c : Char) : Bool :=
  c = ' ' || c = '\t' || c = '\n' || c = '\r' || c = '\x0B' || c = '\x0C'

/-- Case-insensitive prefix match of a (lowercase) pattern against input. -/
def charsMatchCI : List Char → List Char → Bool
  | [], _ => true
  | _ :: _, [] => false
  | p :: ps, c :: cs => (lowerAscii c == p) && charsMatchCI ps cs

/-- Splits a character list at the first occurrence of `sep`; models
`String.prototype.split` with a single-character separator (in particular
the empty string splits to one empty field). -/
def splitOnChar (sep : Char) : List Char → List (List Char)
  | [] => [[]]
  | c :: rest =>
    if c = sep then [] :: splitOnChar sep rest
    else
      match splitOnChar sep rest with
      | s :: ss => (c :: s) :: ss
      | [] => [[c]]

/-- Models `String.prototype.trim` for ASCII input. -/
def trimChars (s : List Char) : List Char :=
  ((s.dropWhile isSpaceJS).reverse.dropWhile isSpaceJS).reverse

/-- Characters strictly before the first `>`, or `none` when there is no `>`;
models the greedy `[^>]*` capture followed by a literal `>`. -/
def splitAtGt : List Char → Option (List Char × List Char)
  | [] => none
  | c :: cs =>
    if c = '>' then some ([], cs)
    else (splitAtGt cs).map (fun p => (c :: p.1, p.2))

/-- Characters strictly before the first quote character of either kind, or
`none` when no quote follows; models the `([^"']*)["']` part of the
attribute regexes. -/
def takeUntilQuote : List Char → Option (List Char)
  | [] => none
  | c :: cs =>
    if c = quoteD ∨ c = quoteS then some []
    else (takeUntilQuote cs).map (fun l => c :: l)

/-- One attempt of the attribute regex `name\s*=\s*["']([^"']*)["']` (with
`name` replaced by `pat`) anchored at the start of `s`. -/
def attrValueHere (pat : List Char) (s : List Char) : Option (List Char) :=
  if charsMatchCI pat s then
    match (s.drop pat.length).dropWhile isSpaceJS with
    | '=' :: r2 =>
      match r2.dropWhile isSpaceJS with
      | q :: r4 => if q = quoteD ∨ q = quoteS then takeUntilQuote r4 else none
      | [] => none
    | _ => none
  else none

/-- First match of the attribute regex over the whole attribute string,
scanning start positions left to right exactly as the regex engine does. -/
def matchAttr (pat : List Char) : List Char → Option (List Char)
  | [] => none
  | c :: cs =>
    match attrValueHere pat (c :: cs) with
    | some v => some v
    | none => matchAttr pat cs

/-- One attempt of `<project\s+([^>]*)>` anchored at the start of `s`,
returning the captured attribute text. -/
def projectTryHere (s : List Char) : Option (List Char) :=
  if charsMatchCI "<project".data s then
    match s.drop 8 with
    | c :: rest =>
      if isSpaceJS c then (splitAtGt (rest.dropWhile isSpaceJS)).map Prod.fst
      else none
    | [] => none
  else none

/-- First match of `<project\s+([^>]*)>` in the content (the source uses
`content.match(...)`, i.e. the first match only). -/
def findProjectAttrs : List Char → Option (List Char)
  | [] => none
  | c :: cs =>
    match projectTryHere (c :: cs) with
    | some a => some a
    | none => findProjectAttrs cs

/-- Rest of the input after the first case-insensitive occurrence of
`</target>`; models the lazy `[\s\S]*?<\/target>` tail of the target regex. -/
def findCloseTarget : List Char → Option (List Char)
  | [] => none
  | c :: cs =>
    if charsMatchCI "</target>".data (c :: cs) then some ((c :: cs).drop 9)
    else findCloseTarget cs

/-- One attempt of `<target\s+([^>]*)(?:\/>|>[\s\S]*?<\/target>)` anchored at
the start of `s`, returning the capture and the rest of the input after the
match.  Mirrors the regex backtracking: the greedy `[^>]*` first runs to the
first `>`; the `>...</target>` alternative succeeds whenever a `</target>`
occurs anywhere later, otherwise the engine backs off one character and the
`\/>` alternative succeeds when the character before the `>` is `/`. -/
def targetTryHere (s : List Char) : Option (List Char × List Char) :=
  if charsMatchCI "<target".data s then
    match s.drop 7 with
    | c :: rest =>
      if isSpaceJS c then
        match splitAtGt (rest.dropWhile isSpaceJS) with
        | some (attrs, afterGt) =>
          match findCloseTarget afterGt with
          | some restAfterClose => some (attrs, restAfterClose)
          | none =>
            match attrs.getLast? with
            | some l => if l = '/' then some (attrs.dropLast, afterGt) else none
            | none => none
        | none => none
      else none
    | [] => none
  else none

/-- One attempt of `<(?:import|include)\s+([^>]*)\/?>` anchored at the start
of `s`.  The greedy `[^>]*` always reaches the first `>`, so the capture
keeps a trailing `/` of a self-closing tag, exactly as in JavaScript. -/
def importTryHere (s : List Char) : Option (List Char × List Char) :=
  let afterTag : Option Nat :=
    if charsMatchCI "<import".data s then some 7
    else if charsMatchCI "<include".data s then some 8
    else none
  match afterTag with
  | none => none
  | some n =>
    match s.drop n with
    | c :: rest =>
      if isSpaceJS c then splitAtGt (rest.dropWhile isSpaceJS)
      else none
    | [] => none

/-- Repeated `exec` of a global regex: scan start positions left to right;
after a match continue at the end of the match (`lastIndex`).  Fuel is the
input length; every step consumes at least one character. -/
def scanAllF (tryAt : List Char → Option (List Char × List Char)) :
    Nat → List Char → List (List Char)
  | 0, _ => []
  | _ + 1, [] => []
  | fuel + 1, c :: cs =>
    match tryAt (c :: cs) with
    | some (attrs, rest) => attrs :: scanAllF tryAt fuel rest
    | none => scanAllF tryAt fuel cs

/-- All matches of a global regex over the content. -/
def scanAll (tryAt : List Char → Option (List Char × List Char))
    (cs : List Char) : List (List Char) :=
  scanAllF tryAt cs.length cs

/-! ### Node `path` module (posix rules) -/

/-- Models `path.isAbsolute`. -/
def pathIsAbsolute (p : String) : Bool :=
  match p.data with
  | '/' :: _ => true
  | _ => false

/-- One step of Node's `normalizeString`: empty and `.` segments are dropped,
`..` pops the previous segment (never above the root, since every resolved
path here is absolute), anything else is kept.  Segments are accumulated in
reverse. -/
def normStep (acc : List (List Char)) (seg : List Char) : List (List Char) :=
  if seg = [] ∨ seg = ['.'] then acc
  else if seg = ['.', '.'] then acc.tail
  else seg :: acc

/-- Normalised segments of a slash-separated path, in order. -/
def normalizeSegs (segs : List (List Char)) : List (List Char) :=
  (segs.foldl normStep []).reverse

/-- Joins segments with `/`. -/
def joinSegs : List (List Char) → List Char
  | [] => []
  | [s] => s
  | s :: rest => s ++ '/' :: joinSegs rest

/-- The loop of `path.resolve`: walk the arguments from last to first
(skipping empty ones), prepending each with a `/`, and stop at the first
absolute one; if none is absolute the process working directory (`"/"` in
this model) is prepended.  The argument list is given already reversed. -/
def resolveAccum : List String → String → String
  | [], acc => "/" ++ "/" ++ acc
  | p :: rest, acc =>
    if p = "" then resolveAccum rest acc
    else if pathIsAbsolute p then p ++ "/" ++ acc
    else resolveAccum rest (p ++ "/" ++ acc)

/-- Models `path.resolve(...paths)` (posix), for the working directory `/`. -/
def pathResolveList (paths : List String) : String :=
  let joined := resolveAccum paths.reverse ""
  let segs := normalizeSegs (splitOnChar '/' joined.data)
  match segs with
  | [] => "/"
  | _ => String.mk ('/' :: joinSegs segs)

/-- Models the one-argument `path.resolve(p)`. -/
def pathResolve1 (p : String) : String := pathResolveList [p]

/-- Models the two-argument `path.resolve(base, p)`. -/
def pathResolve2 (base p : String) : String := pathResolveList [base, p]

/-- Models `path.dirname` (posix): scan from the end, skip trailing slashes,
cut at the previous slash; the first character is never examined by the
loop, so `/x` gives `/` and `x` gives `.`. -/
def pathDirname (p : String) : String :=
  match p.data with
  | [] => "."
  | c :: tl =>
    let hasRoot := c = '/'
    let r2 := (tl.reverse.dropWhile (fun x => x = '/')).dropWhile (fun x => ¬ x = '/')
    match r2 with
    | [] => if hasRoot then "/" else "."
    | _ =>
      if hasRoot ∧ r2.length = 1 then "//"
      else String.mk ((c :: tl).take r2.length)

/-! ### Data model (`src/types/antTypes.ts`) -/

/-- `AntTarget` from `antTypes.ts`; `null` fields become `Option`. -/
structure AntTarget where
  name : String
  description : Option String
  dependencies : List String
  ifCondition : Option String
  unlessCondition : Option String
  isDefault : Bool
deriving DecidableEq

/-- `AntBuildInfo` from `antTypes.ts`. -/
structure AntBuildInfo where
  projectName : String
  defaultTarget : String
  baseDir : String
  description : Option String
  buildFile : String
  targets : List AntTarget
deriving DecidableEq

/-- A target declaration as extracted from one regex match: the raw attribute
values of one `<target ...>` element (a match without a `name` attribute is
dropped before this record is built). -/
structure TargetDecl where
  name : String
  description : Option String
  depends : Option String
  ifCond : Option String
  unlessCond : Option String
deriving DecidableEq

/-- The file system seen by `fs.readFile`: a finite map from absolute path
strings to file contents. -/
abbrev Fsys := List (String × String)

/-- Models `fs.readFile` (success or failure only; contents on success). -/
def readFile (fs : Fsys) (p : String) : Option String :=
  (fs.find? (fun e => e.1 == p)).map (fun e => e.2)

/-! ### The fallback text parser (`parseWithXml` / `parseXmlFile`) -/

/-- All target declarations of one file, in document order: the target-regex
matches, keeping only those with a `name` attribute, with the remaining
attributes extracted from the same capture. -/
def extractTargets (cs : List Char) : List TargetDecl :=
  (scanAll targetTryHere cs).filterMap (fun attrs =>
    (matchAttr "name".data attrs).map (fun n =>
      { name := String.mk n
        description := (matchAttr "description".data attrs).map String.mk
        depends := (matchAttr "depends".data attrs).map String.mk
        ifCond := (matchAttr "if".data attrs).map String.mk
        unlessCond := (matchAttr "unless".data attrs).map String.mk }))

/-- The `file` attributes of the import/include matches of one file, in
document order (matches without a `file` attribute are skipped). -/
def importRefs (cs : List Char) : List String :=
  (scanAll importTryHere cs).filterMap (fun attrs =>
    (matchAttr "file".data attrs).map String.mk)

/-- The dependency list built from a `depends` attribute:
`dependsMatch ? dependsMatch[1].split(',').map(d => d.trim()) : []`. -/
def depsOfAttr : Option String → List String
  | none => []
  | some d => (splitOnChar ',' d.data).map (fun l => String.mk (trimChars l))

/-- The target record pushed for one declaration, with `isDefault` compared
against the build info's current default target. -/
def declToTarget (defaultTarget : String) (d : TargetDecl) : AntTarget :=
  { name := d.name
    description := d.description
    dependencies := depsOfAttr d.depends
    ifCondition := d.ifCond
    unlessCondition := d.unlessCond
    isDefault := d.name == defaultTarget }

/-- One iteration of the target loop: a declaration whose name is already
present is skipped (first definition wins), otherwise a record is pushed. -/
def pushTarget (bi : AntBuildInfo) (d : TargetDecl) : AntBuildInfo :=
  if bi.targets.any (fun t => t.name == d.name) then bi
  else { bi with targets := bi.targets ++ [declToTarget bi.defaultTarget d] }

/-- The project-attribute block, executed only for the main build file:
`name`, `default` and `basedir` are taken from the first `<project ...>`
match, `basedir` resolved against the file's directory. -/
def applyProjectAttrs (fileDir : String) (cs : List Char) (bi : AntBuildInfo) :
    AntBuildInfo :=
  match findProjectAttrs cs with
  | none => bi
  | some attrs =>
    let bi1 :=
      match matchAttr "name".data attrs with
      | some v => { bi with projectName := String.mk v }
      | none => bi
    let bi2 :=
      match matchAttr "default".data attrs with
      | some v => { bi1 with defaultTarget := String.mk v }
      | none => bi1
    match matchAttr "basedir".data attrs with
    | some v => { bi2 with baseDir := pathResolve2 fileDir (String.mk v) }
    | none => bi2

/-- Mutable state threaded through the recursive walk: the build info under
construction and the visited-set of processed files. -/
structure ParseState where
  info : AntBuildInfo
  processedFiles : List String
deriving DecidableEq

/-- The import loop: each reference is resolved against the current file's
directory when relative (`if (!path.isAbsolute(importPath)) importPath =
path.resolve(fileDir, importPath)`), then recursively parsed. -/
def processImports (recur : String → ParseState → ParseState)
    (fileDir : String) : List String → ParseState → ParseState
  | [], st => st
  | ref :: rest, st =>
    let importPath := if ¬ pathIsAbsolute ref then pathResolve2 fileDir ref else ref
    processImports recur fileDir rest (recur importPath st)

/-- The body of `parseXmlFile` after the visited-set check and insertion:
read the file (a failure is logged and swallowed), take project attributes
when this is the first processed file, push target declarations, then walk
the imports. -/
def parseFileBody (fs : Fsys) (recur : String → ParseState → ParseState)
    (normalizedPath : String) (st : ParseState) : ParseState :=
  match readFile fs normalizedPath with
  | none => st
  | some content =>
    let cs := content.data
    let fileDir := pathDirname normalizedPath
    let bi0 :=
      if st.processedFiles.length == 1 then applyProjectAttrs fileDir cs st.info
      else st.info
    let bi1 := (extractTargets cs).foldl pushTarget bi0
    processImports recur fileDir (importRefs cs) { st with info := bi1 }

/-- `parseXmlFile` with fuel: normalise the path, return when already
processed, otherwise mark it processed and run the body, recursing with one
unit of fuel less. -/
def parseXmlFileF (fs : Fsys) : Nat → String → ParseState → ParseState
  | 0, _, st => st
  | fuel + 1, filePath, st =>
    let normalizedPath := pathResolve1 filePath
    if st.processedFiles.contains normalizedPath then st
    else
      parseFileBody fs (fun p s => parseXmlFileF fs fuel p s) normalizedPath
        { st with processedFiles := normalizedPath :: st.processedFiles }

/-! ### Sorting (`targets.sort((a, b) => a.name.localeCompare(b.name))`)

`localeCompare` is locale-aware collation, not code-point order.  It is
modelled here for ASCII strings under the default root collation: the
primary comparison is case-insensitive (and places digits before letters,
which their code points already do once letters are lowercased), with a
tertiary comparison placing lowercase before uppercase; other characters
are compared by code point at the primary level.  V8's sort is a stable
sort, so its output under a consistent comparator equals the output of any
stable sort, insertion sort below. -/

/-- Primary collation key: code points of the ASCII-lowercased characters. -/
def primKey (s : String) : List Nat :=
  s.data.map (fun c => (lowerAscii c).toNat)

/-- Tertiary collation key: 1 for uppercase ASCII letters, 0 otherwise, so
lowercase sorts before uppercase at equal primary key. -/
def caseKey (s : String) : List Nat :=
  s.data.map (fun c => if 65 ≤ c.toNat ∧ c.toNat ≤ 90 then 1 else 0)

/-- Lexicographic comparison of key lists. -/
def lexLeN : List Nat → List Nat → Bool
  | [], _ => true
  | _ :: _, [] => false
  | a :: as, b :: bs => if a < b then true else if a = b then lexLeN as bs else false

/-- The modelled `a.localeCompare(b) <= 0` relation. -/
def localeLe (a b : String) : Bool :=
  if primKey a = primKey b then lexLeN (caseKey a) (caseKey b)
  else lexLeN (primKey a) (primKey b)

/-- The sort comparator over target records. -/
def targetLe (a b : AntTarget) : Bool := localeLe a.name b.name

/-- Stable insertion of one element into a sorted list. -/
def insertLe {α : Type} (le : α → α → Bool) (x : α) : List α → List α
  | [] => [x]
  | y :: ys => if le x y then x :: y :: ys else y :: insertLe le x ys

/-- Stable insertion sort. -/
def insertionSort {α : Type} (le : α → α → Bool) : List α → List α
  | [] => []
  | x :: xs => insertLe le x (insertionSort le xs)

/-- The final alphabetical sort of the accumulated targets. -/
def sortTargets (ts : List AntTarget) : List AntTarget :=
  insertionSort targetLe ts

/-! ### `parseWithXml` -/

/-- The initial `buildInfo` literal of `parseWithXml`. -/
def initialInfo (buildFilePath : String) : AntBuildInfo :=
  { projectName := ""
    defaultTarget := ""
    baseDir := pathDirname buildFilePath
    description := none
    buildFile := buildFilePath
    targets := [] }

/-- Initial parse state: fresh build info and an empty visited-set. -/
def initState (buildFilePath : String) : ParseState :=
  { info := initialInfo buildFilePath, processedFiles := [] }

/-- The build info of the walk before the final sort. -/
def preInfo (fs : Fsys) (fuel : Nat) (buildFilePath : String) : AntBuildInfo :=
  (parseXmlFileF fs fuel buildFilePath (initState buildFilePath)).info

/-- `parseWithXml` at a given fuel: run the recursive walk from a fresh
state, then sort the targets alphabetically. -/
def parseWithXmlFuel (fs : Fsys) (fuel : Nat) (buildFilePath : String) :
    AntBuildInfo :=
  let bi := preInfo fs fuel buildFilePath
  { bi with targets := sortTargets bi.targets }

/-- `parseWithXml`: the fuel `fs.length + 1` is sufficient, as the
stabilisation theorem below proves. -/
def parseWithXml (fs : Fsys) (buildFilePath : String) : AntBuildInfo :=
  parseWithXmlFuel fs (fs.length + 1) buildFilePath

/-! ### The Java tier and the facade (`parseWithJava` / `parseBuildFile`) -/

/-- Outcome of spawning the Java subprocess, as observed by the service: a
launch error (the `error` event) or an exit with a code and the collected
standard output and standard error. -/
inductive SpawnOutcome where
  | launchError (message : String)
  | exited (code : Int) (stdout : String) (stderr : String)

/-- `parseWithJava`, parameterised by the subprocess behaviour and by the
JSON decoder (`JSON.parse` composed with the `AntBuildInfo` shape): a launch
error rejects, a non-zero exit code rejects, undecodable output rejects,
otherwise the decoded build info is returned. -/
def parseWithJava (spawn : String → SpawnOutcome)
    (decodeJson : String → Option AntBuildInfo) (buildFilePath : String) :
    Except String AntBuildInfo :=
  match spawn buildFilePath with
  | .launchError m => .error m
  | .exited code out err =>
    if code ≠ 0 then
      .error ("Java parser exited with code " ++ toString code ++ ": " ++ err)
    else
      match decodeJson out with
      | some info => .ok info
      | none => .error "Failed to parse JSON output"

/-- A cache entry pairs a build info with its capture timestamp. -/
structure CacheEntry where
  info : AntBuildInfo
  timestamp : Nat
deriving DecidableEq

/-- The cache map, keyed by the (unresolved) build file path. -/
abbrev Cache := List (String × CacheEntry)

/-- The cache time-to-live (`cacheTimeout = 30000` milliseconds). -/
def cacheTimeout : Nat := 30000

/-- The cache lookup of `parseBuildFile`: an entry younger than the
time-to-live is returned, anything else counts as a miss. -/
def cacheGet (cache : Cache) (now : Nat) (path : String) : Option AntBuildInfo :=
  match cache.find? (fun e => e.1 == path) with
  | some e => if now - e.2.timestamp < cacheTimeout then some e.2.info else none
  | none => none

/-- `this.cache.set(path, { info, timestamp: Date.now() })`. -/
def cachePut (cache : Cache) (path : String) (info : AntBuildInfo) (now : Nat) :
    Cache :=
  (path, { info := info, timestamp := now }) ::
    cache.filter (fun e => ¬ e.1 = path)

/-- `parseBuildFile`: cache check, then the Java tier, then on any Java
failure the XML fallback; the winning result is cached.  `now` stands for
`Date.now()` during this call. -/
def parseBuildFile (spawn : String → SpawnOutcome)
    (decodeJson : String → Option AntBuildInfo) (fs : Fsys)
    (buildFilePath : String) (cache : Cache) (now : Nat) :
    AntBuildInfo × Cache :=
  match cacheGet cache now buildFilePath with
  | some info => (info, cache)
  | none =>
    match parseWithJava spawn decodeJson buildFilePath with
    | .ok info => (info, cachePut cache buildFilePath info now)
    | .error _ =>
      let info := parseWithXml fs buildFilePath
      (info, cachePut cache buildFilePath info now)

/-! ### The spec's import-resolution rule, for comparison with the code -/

/-- The spec's description of import resolution: resolve a relative
reference against the current file's own directory; an absolute reference
is used as-is. -/
def specResolveImport (currentFileDir : String) (ref : String) : String :=
  if pathIsAbsolute ref then ref else pathResolve2 currentFileDir ref

/-- The import loop with the resolution rule replaced by the spec's
`specResolveImport`, to be proven equal to `processImports`. -/
def processImportsSpec (recur : String → ParseState → ParseState)
    (fileDir : String) : List String → ParseState → ParseState
  | [], st => st
  | ref :: rest, st =>
    processImportsSpec recur fileDir rest (recur (specResolveImport fileDir ref) st)

/-- The recursive walk with the spec-worded import resolution, with the
directory passed to the resolver being the current file's own directory. -/
def parseXmlFileSpecF (fs : Fsys) : Nat → String → ParseState → ParseState
  | 0, _, st => st
  | fuel + 1, filePath, st =>
    let normalizedPath := pathResolve1 filePath
    if st.processedFiles.contains normalizedPath then st
    else
      let st1 := { st with processedFiles := normalizedPath :: st.processedFiles }
      match readFile fs normalizedPath with
      | none => st1
      | some content =>
        let cs := content.data
        let fileDir := pathDirname normalizedPath
        let bi0 :=
          if st1.processedFiles.length == 1 then applyProjectAttrs fileDir cs st1.info
          else st1.info
        let bi1 := (extractTargets cs).foldl pushTarget bi0
        processImportsSpec (fun p s => parseXmlFileSpecF fs fuel p s) fileDir
          (importRefs cs) { st1 with info := bi1 }

/-! ### Invariant vocabulary used by the theorems -/

/-- Code-point (ordinal) string comparison, the order the spec claims for
the final sort. -/
def ordinalLe (a b : String) : Bool :=
  lexLeN (a.data.map Char.toNat) (b.data.map Char.toNat)

/-- A target record originates from a declaration of some file of the file
system, evaluated against default target `d`. -/
def Origin (fs : Fsys) (d : String) (t : AntTarget) : Prop :=
  ∃ p c dd, (p, c) ∈ fs ∧ dd ∈ extractTargets c.data ∧ t = declToTarget d dd

/-- How one parse state extends another along the recursive walk: the
visited-set only grows (and stays duplicate-free), and — whenever the walk
did not start at the root, i.e. the visited-set was already non-empty — the
default target is unchanged and the target list only gains records that
originate from declarations of the file system, keeping names
duplicate-free. -/
def StExt (fs : Fsys) (st r : ParseState) : Prop :=
  st.processedFiles <:+ r.processedFiles ∧
  (st.processedFiles.Nodup → r.processedFiles.Nodup) ∧
  (st.processedFiles ≠ [] →
    r.info.defaultTarget = st.info.defaultTarget ∧
    ∃ ext, r.info.targets = st.info.targets ++ ext ∧
      (∀ t ∈ ext, Origin fs st.info.defaultTarget t) ∧
      ((st.info.targets.map AntTarget.name).Nodup →
        (r.info.targets.map AntTarget.name).Nodup))

/-- The keys of the file system. -/
def keysOf (fs : Fsys) : Finset String := (fs.map Prod.fst).toFinset

/-- Number of readable files not yet visited: the termination measure of the
recursive walk. -/
def freshCount (fs : Fsys) (st : ParseState) : Nat :=
  ((keysOf fs).filter (fun k => k ∉ st.processedFiles)).card

/-- The failure modes of the Java tier named by the spec: launch error,
non-zero exit, undecodable output. -/
def JavaTierFails (spawn : String → SpawnOutcome)
    (decodeJson : String → Option AntBuildInfo) (p : String) : Prop :=
  (∃ m, spawn p = .launchError m) ∨
  (∃ code out err, spawn p = .exited code out err ∧ code ≠ 0) ∨
  (∃ out err, spawn p = .exited 0 out err ∧ decodeJson out = none)

/-! ### Concrete fixtures used by witnesses and counterexamples -/

/-- A project without a `default` attribute and a target with `name=""`. -/
def contentC10 : String := "<project name=\"p\"><target name=\"\"/></project>"

/-- File system for the empty-name default scenario. -/
def fsC10 : Fsys := [("/c10.xml", contentC10)]

/-- Same shape as `contentC10`, separate fixture for the C8 counterexample. -/
def contentC8 : String := "<project name=\"q\"><target name=\"\"/></project>"

/-- File system for the default-target counterexample. -/
def fsC8 : Fsys := [("/e/build.xml", contentC8)]

/-- Two targets whose locale order (`a` before `B`) differs from their
code-point order (`B` before `a`). -/
def contentC4 : String :=
  "<project name=\"p\"><target name=\"B\"/><target name=\"a\"/></project>"

/-- File system for the sort-order counterexample. -/
def fsC4 : Fsys := [("/c4.xml", contentC4)]

/-- Root file A: declares `compile`, then imports B. -/
def contentA : String :=
  "<project name=\"A\" default=\"compile\"><target name=\"compile\" depends=\"x, y\" description=\"root compile\"/><import file=\"b.xml\"/></project>"

/-- Imported file B: re-declares `compile` and adds `extra`. -/
def contentB : String :=
  "<project name=\"B\"><target name=\"compile\" description=\"import compile\"/><target name=\"extra\"/></project>"

/-- File system for the first-definition-wins scenario. -/
def fsMerge : Fsys := [("/w/a.xml", contentA), ("/w/b.xml", contentB)]

/-- A target with an explicitly empty `depends` attribute. -/
def contentDeps : String :=
  "<project name=\"p\"><target name=\"t\" depends=\"\"/></project>"

/-- File system for the empty-`depends` counterexample. -/
def fsDeps : Fsys := [("/d/build.xml", contentDeps)]

/-- Cyclic import, file A of the pair. -/
def contentCycA : String :=
  "<project name=\"a\"><target name=\"ta\"/><import file=\"b.xml\"/></project>"

/-- Cyclic import, file B of the pair (imports A back). -/
def contentCycB : String :=
  "<project name=\"b\"><target name=\"tb\"/><import file=\"a.xml\"/></project>"

/-- File system with a two-file import cycle. -/
def fsCyc : Fsys := [("/x/a.xml", contentCycA), ("/x/b.xml", contentCycB)]

/-- Nested-import fixture: the root imports `sub/mid.xml`, which imports
`b.xml`; a decoy `b.xml` also exists next to the root, so the result shows
which directory relative references are resolved against. -/
def contentRootN : String :=
  "<project name=\"p\"><import file=\"sub/mid.xml\"/></project>"

/-- The middle file of the nested-import fixture. -/
def contentMidN : String :=
  "<project name=\"m\"><import file=\"b.xml\"/></project>"

/-- The deep file of the nested-import fixture (correct resolution). -/
def contentDeepN : String :=
  "<project name=\"x\"><target name=\"deep\"/></project>"

/-- The decoy file of the nested-import fixture (root-directory resolution). -/
def contentDecoyN : String :=
  "<project name=\"y\"><target name=\"wrong\"/></project>"

/-- File system for the nested-import scenario. -/
def fsNested : Fsys :=
  [("/a/build.xml", contentRootN), ("/a/sub/mid.xml", contentMidN),
   ("/a/sub/b.xml", contentDeepN), ("/a/b.xml", contentDecoyN)]

/-- A subprocess that always fails to launch (missing `java` executable). -/
def spawnFailing : String → SpawnOutcome := fun _ => .launchError "spawn java ENOENT"

/-- A decoder that never succeeds. -/
def decodeNone : String → Option AntBuildInfo := fun _ => none

/-! ## Helper lemmas -/

lemma contains_eq_true_iff {l : List String} {a : String} :
    l.contains a = true ↔ a ∈ l := by
  simp [List.contains, List.elem_iff]

lemma filter_name_eq_of_nodup :
    ∀ (l : List AntTarget) (t : AntTarget),
      (l.map AntTarget.name).Nodup → t ∈ l →
      l.filter (fun x => x.name == t.name) = [t] := by
  intro l
  induction l with
  | nil => intro t _ h; cases h
  | cons x xs ih =>
    intro t hnd hmem
    simp only [List.map_cons, List.nodup_cons] at hnd
    rw [List.filter_cons]
    rcases List.mem_cons.mp hmem with ht | hx
    · subst ht
      have hxs : xs.filter (fun y => y.name == t.name) = [] := by
        apply List.filter_eq_nil_iff.mpr
        intro y hy hby
        exact hnd.1 (List.mem_map.mpr ⟨y, hy, (eq_of_beq hby)⟩)
      simp [hxs]
    · have hne : ¬ (x.name == t.name) = true := by
        intro hb
        exact hnd.1 (List.mem_map.mpr ⟨t, hx, (eq_of_beq hb).symm⟩)
      simp only [hne, if_false, Bool.false_eq_true]
      exact ih t hnd.2 hx

lemma eq_of_name_eq_of_nodup {l : List AntTarget} {t₁ t₂ : AntTarget}
    (hn : (l.map AntTarget.name).Nodup) (h₁ : t₁ ∈ l) (h₂ : t₂ ∈ l)
    (he : t₂.name = t₁.name) : t₂ = t₁ := by
  have h := filter_name_eq_of_nodup l t₁ hn h₁
  have hmem : t₂ ∈ l.filter (fun x => x.name == t₁.name) :=
    List.mem_filter.mpr ⟨h₂, by simp [he]⟩
  rw [h] at hmem
  simpa using hmem

lemma lexLeN_total : ∀ xs ys : List Nat, lexLeN xs ys = true ∨ lexLeN ys xs = true := by
  intro xs
  induction xs with
  | nil => intro ys; left; rfl
  | cons a as ih =>
    intro ys
    cases ys with
    | nil => right; rfl
    | cons b bs =>
      rcases Nat.lt_trichotomy a b with h | h | h
      · left; simp [lexLeN, h]
      · subst h
        rcases ih bs with hh | hh
        · left; simp [lexLeN, hh]
        · right; simp [lexLeN, hh]
      · right; simp [lexLeN, h]

lemma lexLeN_antisymm : ∀ xs ys : List Nat,
    lexLeN xs ys = true → lexLeN ys xs = true → xs = ys := by
  intro xs
  induction xs with
  | nil =>
    intro ys _ h2
    cases ys with
    | nil => rfl
    | cons b bs => simp [lexLeN] at h2
  | cons a as ih =>
    intro ys h1 h2
    cases ys with
    | nil => simp [lexLeN] at h1
    | cons b bs =>
      simp only [lexLeN] at h1 h2
      rcases Nat.lt_trichotomy a b with h | h | h
      · simp [Nat.lt_asymm h, Nat.ne_of_gt h] at h2
      · subst h
        simp only [lt_irrefl, if_false, if_pos rfl] at h1 h2
        rw [ih bs h1 h2]
      · simp [Nat.lt_asymm h, Nat.ne_of_gt h] at h1

lemma lexLeN_trans : ∀ xs ys zs : List Nat,
    lexLeN xs ys = true → lexLeN ys zs = true → lexLeN xs zs = true := by
  intro xs
  induction xs with
  | nil => intro ys zs _ _; rfl
  | cons a as ih =>
    intro ys zs h1 h2
    cases ys with
    | nil => simp [lexLeN] at h1
    | cons b bs =>
      cases zs with
      | nil => simp [lexLeN] at h2
      | cons c cs =>
        simp only [lexLeN] at h1 h2 ⊢
        rcases Nat.lt_trichotomy a b with hab | hab | hab
        · rcases Nat.lt_trichotomy b c with hbc | hbc | hbc
          · simp [Nat.lt_trans hab hbc]
          · subst hbc; simp [hab]
          · simp [Nat.lt_asymm hbc, Nat.ne_of_gt hbc] at h2
        · subst hab
          rcases Nat.lt_trichotomy a c with hac | hac | hac
          · simp [hac]
          · subst hac
            simp only [lt_irrefl, if_false, if_pos rfl] at h1 h2 ⊢
            exact ih bs cs h1 h2
          · simp [Nat.lt_asymm hac, Nat.ne_of_gt hac] at h2
        · simp [Nat.lt_asymm hab, Nat.ne_of_gt hab] at h1

lemma localeLe_total : ∀ a b : String, localeLe a b = true ∨ localeLe b a = true := by
  intro a b
  by_cases h : primKey a = primKey b
  · simp only [localeLe, if_pos h, if_pos h.symm]
    exact lexLeN_total _ _
  · have h' : ¬ primKey b = primKey a := fun hh => h hh.symm
    simp only [localeLe, if_neg h, if_neg h']
    exact lexLeN_total _ _

lemma localeLe_trans : ∀ a b c : String,
    localeLe a b = true → localeLe b c = true → localeLe a c = true := by
  intro a b c h1 h2
  by_cases hab : primKey a = primKey b <;> by_cases hbc : primKey b = primKey c
  · have hac : primKey a = primKey c := hab.trans hbc
    simp only [localeLe, if_pos hab] at h1
    simp only [localeLe, if_pos hbc] at h2
    simp only [localeLe, if_pos hac]
    exact lexLeN_trans _ _ _ h1 h2
  · have hac : ¬ primKey a = primKey c := fun h => hbc (hab.symm.trans h)
    simp only [localeLe, if_neg hbc] at h2
    simp only [localeLe, if_neg hac]
    rw [hab]
    exact h2
  · have hac : ¬ primKey a = primKey c := fun h => hab (h.trans hbc.symm)
    simp only [localeLe, if_neg hab] at h1
    simp only [localeLe, if_neg hac]
    rw [← hbc]
    exact h1
  · simp only [localeLe, if_neg hab] at h1
    simp only [localeLe, if_neg hbc] at h2
    by_cases hac : primKey a = primKey c
    · exact absurd (lexLeN_antisymm _ _ h1 (hac ▸ h2)) hab
    · simp only [localeLe, if_neg hac]
      exact lexLeN_trans _ _ _ h1 h2

lemma targetLe_total : ∀ a b : AntTarget, targetLe a b = true ∨ targetLe b a = true :=
  fun a b => localeLe_total a.name b.name

lemma targetLe_trans : ∀ a b c : AntTarget,
    targetLe a b = true → targetLe b c = true → targetLe a c = true :=
  fun a b c => localeLe_trans a.name b.name c.name

lemma insertLe_perm {α : Type} (le : α → α → Bool) (x : α) :
    ∀ l : List α, List.Perm (insertLe le x l) (x :: l) := by
  intro l
  induction l with
  | nil => exact List.Perm.refl _
  | cons y ys ih =>
    simp only [insertLe]
    by_cases h : le x y = true
    · rw [if_pos h]
    · rw [if_neg h]
      exact (ih.cons y).trans (List.Perm.swap x y ys)

lemma insertionSort_perm {α : Type} (le : α → α → Bool) :
    ∀ l : List α, List.Perm (insertionSort le l) l := by
  intro l
  induction l with
  | nil => exact List.Perm.refl _
  | cons x xs ih =>
    exact (insertLe_perm le x (insertionSort le xs)).trans (ih.cons x)

lemma pairwise_insertLe {α : Type} (le : α → α → Bool)
    (htot : ∀ a b, le a b = true ∨ le b a = true)
    (htrans : ∀ a b c, le a b = true → le b c = true → le a c = true)
    (x : α) :
    ∀ l : List α, l.Pairwise (fun a b => le a b = true) →
      (insertLe le x l).Pairwise (fun a b => le a b = true) := by
  intro l
  induction l with
  | nil => intro _; simp [insertLe]
  | cons y ys ih =>
    intro hl
    rcases List.pairwise_cons.mp hl with ⟨hy, hys⟩
    simp only [insertLe]
    by_cases h : le x y = true
    · rw [if_pos h]
      refine List.pairwise_cons.mpr ⟨?_, hl⟩
      intro z hz
      rcases List.mem_cons.mp hz with hzy | hzin
      · rw [hzy]; exact h
      · exact htrans x y z h (hy z hzin)
    · rw [if_neg h]
      refine List.pairwise_cons.mpr ⟨?_, ih hys⟩
      intro z hz
      have hz' : z ∈ x :: ys := (insertLe_perm le x ys).mem_iff.mp hz
      rcases List.mem_cons.mp hz' with hzx | hzin
      · rw [hzx]
        rcases htot x y with h' | h'
        · exact absurd h' h
        · exact h'
      · exact hy z hzin

lemma pairwise_insertionSort {α : Type} (le : α → α → Bool)
    (htot : ∀ a b, le a b = true ∨ le b a = true)
    (htrans : ∀ a b c, le a b = true → le b c = true → le a c = true) :
    ∀ l : List α, (insertionSort le l).Pairwise (fun a b => le a b = true) := by
  intro l
  induction l with
  | nil => simp [insertionSort]
  | cons x xs ih => exact pairwise_insertLe le htot htrans x _ ih

lemma sortTargets_perm (ts : List AntTarget) : List.Perm (sortTargets ts) ts :=
  insertionSort_perm targetLe ts

lemma sortTargets_pairwise (ts : List AntTarget) :
    (sortTargets ts).Pairwise (fun a b => targetLe a b = true) :=
  pairwise_insertionSort targetLe targetLe_total targetLe_trans ts

/-! ## Lemmas about the target merge -/

lemma any_name_eq_false_iff (l : List AntTarget) (n : String) :
    (l.any fun t => t.name == n) = false ↔ n ∉ l.map AntTarget.name := by
  rw [← Bool.not_eq_true, List.any_eq_true]
  simp only [beq_iff_eq, List.mem_map]

lemma pushTarget_pos {bi : AntBuildInfo} {d : TargetDecl}
    (h : (bi.targets.any fun t => t.name == d.name) = true) :
    pushTarget bi d = bi := by
  unfold pushTarget
  rw [if_pos h]

lemma pushTarget_neg {bi : AntBuildInfo} {d : TargetDecl}
    (h : ¬ (bi.targets.any fun t => t.name == d.name) = true) :
    pushTarget bi d =
      { bi with targets := bi.targets ++ [declToTarget bi.defaultTarget d] } := by
  unfold pushTarget
  rw [if_neg h]

lemma foldPush_shape :
    ∀ (decls : List TargetDecl) (bi : AntBuildInfo),
      ∃ ext, decls.foldl pushTarget bi = { bi with targets := bi.targets ++ ext } ∧
        ∀ t ∈ ext, ∃ dd ∈ decls, t = declToTarget bi.defaultTarget dd := by
  intro decls
  induction decls with
  | nil =>
    intro bi
    exact ⟨[], by simp, by simp⟩
  | cons d ds ih =>
    intro bi
    simp only [List.foldl_cons]
    by_cases hc : (bi.targets.any fun t => t.name == d.name) = true
    · rw [pushTarget_pos hc]
      obtain ⟨ext, heq, hor⟩ := ih bi
      exact ⟨ext, heq, fun t ht =>
        let ⟨dd, hdd, he⟩ := hor t ht
        ⟨dd, List.mem_cons_of_mem d hdd, he⟩⟩
    · rw [pushTarget_neg hc]
      obtain ⟨ext, heq, hor⟩ :=
        ih { bi with targets := bi.targets ++ [declToTarget bi.defaultTarget d] }
      refine ⟨declToTarget bi.defaultTarget d :: ext, ?_, ?_⟩
      · rw [heq]
        simp
      · intro t ht
        rcases List.mem_cons.mp ht with hh | hh
        · exact ⟨d, List.mem_cons_self d ds, hh⟩
        · obtain ⟨dd, hdd, he⟩ := hor t hh
          exact ⟨dd, List.mem_cons_of_mem d hdd, he⟩

lemma foldPush_nodup :
    ∀ (decls : List TargetDecl) (bi : AntBuildInfo),
      (bi.targets.map AntTarget.name).Nodup →
      (((decls.foldl pushTarget bi).targets).map AntTarget.name).Nodup := by
  intro decls
  induction decls with
  | nil => intro bi h; exact h
  | cons d ds ih =>
    intro bi h
    simp only [List.foldl_cons]
    by_cases hc : (bi.targets.any fun t => t.name == d.name) = true
    · rw [pushTarget_pos hc]; exact ih bi h
    · rw [pushTarget_neg hc]
      apply ih
      have hnot : d.name ∉ bi.targets.map AntTarget.name :=
        (any_name_eq_false_iff bi.targets d.name).mp (Bool.not_eq_true _ ▸ hc)
      simp only [List.map_append, List.map_cons, List.map_nil]
      rw [List.nodup_append]
      refine ⟨h, List.nodup_singleton _, ?_⟩
      intro a ha hb
      simp only [declToTarget, List.mem_singleton] at hb
      exact hnot (hb ▸ ha)

lemma foldPush_mem_first :
    ∀ (decls : List TargetDecl) (bi : AntBuildInfo) (n : String) (dd : TargetDecl),
      decls.find? (fun x => x.name == n) = some dd →
      n ∉ bi.targets.map AntTarget.name →
      declToTarget bi.defaultTarget dd ∈ (decls.foldl pushTarget bi).targets := by
  intro decls
  induction decls with
  | nil => intro bi n dd h _; cases h
  | cons d ds ih =>
    intro bi n dd hfind hn
    simp only [List.foldl_cons]
    by_cases hd : (d.name == n) = true
    · rw [@List.find?_cons_of_pos _ (fun x => x.name == n) d ds hd] at hfind
      have hdd : d = dd := by injection hfind
      rw [← hdd]
      have hc : ¬ (bi.targets.any fun t => t.name == d.name) = true := by
        rw [Bool.not_eq_true]
        apply (any_name_eq_false_iff _ _).mpr
        rw [eq_of_beq hd]
        exact hn
      rw [pushTarget_neg hc]
      obtain ⟨ext, heq, _⟩ :=
        foldPush_shape ds { bi with targets := bi.targets ++ [declToTarget bi.defaultTarget d] }
      rw [heq]
      simp
    · rw [@List.find?_cons_of_neg _ (fun x => x.name == n) d ds hd] at hfind
      by_cases hc : (bi.targets.any fun t => t.name == d.name) = true
      · rw [pushTarget_pos hc]
        exact ih bi n dd hfind hn
      · rw [pushTarget_neg hc]
        have hn' : n ∉ (bi.targets ++ [declToTarget bi.defaultTarget d]).map AntTarget.name := by
          rw [List.map_append]
          rw [List.mem_append]
          rintro (h | h)
          · exact hn h
          · simp only [List.map_cons, List.map_nil, List.mem_singleton, declToTarget] at h
            exact hd (by simp [h])
        exact ih _ n dd hfind hn'

/-! ## Lemmas about the recursive walk -/

lemma readFile_mem {fs : Fsys} {p c : String} (h : readFile fs p = some c) :
    (p, c) ∈ fs := by
  unfold readFile at h
  cases hf : fs.find? (fun e => e.1 == p) with
  | none => rw [hf] at h; cases h
  | some e =>
    rw [hf] at h
    have h2 : e.2 = c := Option.some.inj h
    have hm := List.mem_of_find?_eq_some hf
    have hp := List.find?_some hf
    have he : e = (p, c) := Prod.ext (eq_of_beq hp) h2
    exact he ▸ hm

lemma readFile_key_mem {fs : Fsys} {p c : String} (h : readFile fs p = some c) :
    p ∈ fs.map Prod.fst :=
  List.mem_map.mpr ⟨(p, c), readFile_mem h, rfl⟩

lemma suffix_ne_nil {l₁ l₂ : List String} (h : l₁ <:+ l₂) (hne : l₁ ≠ []) :
    l₂ ≠ [] := by
  intro h2
  subst h2
  exact hne (List.suffix_nil.mp h)

lemma stExt_refl (fs : Fsys) (st : ParseState) : StExt fs st st := by
  refine ⟨List.suffix_refl _, id, ?_⟩
  intro _
  exact ⟨rfl, [], by simp, by simp, id⟩

lemma stExt_trans {fs : Fsys} {st r₁ r₂ : ParseState}
    (h1 : StExt fs st r₁) (h2 : StExt fs r₁ r₂) : StExt fs st r₂ := by
  obtain ⟨s1, n1, t1⟩ := h1
  obtain ⟨s2, n2, t2⟩ := h2
  refine ⟨s1.trans s2, fun h => n2 (n1 h), ?_⟩
  intro hne
  obtain ⟨d1, ext1, he1, ho1, hn1⟩ := t1 hne
  obtain ⟨d2, ext2, he2, ho2, hn2⟩ := t2 (suffix_ne_nil s1 hne)
  refine ⟨d2.trans d1, ext1 ++ ext2, ?_, ?_, fun h => hn2 (hn1 h)⟩
  · rw [he2, he1, List.append_assoc]
  · intro t ht
    rcases List.mem_append.mp ht with h | h
    · exact ho1 t h
    · obtain ⟨p, c, dd, hmem, hdd, hteq⟩ := ho2 t h
      exact ⟨p, c, dd, hmem, hdd, by rw [hteq, d1]⟩

lemma processImports_stExt {fs : Fsys} {recur : String → ParseState → ParseState}
    (hstep : ∀ p s, StExt fs s (recur p s)) (dir : String) :
    ∀ (refs : List String) (st : ParseState),
      StExt fs st (processImports recur dir refs st) := by
  intro refs
  induction refs with
  | nil => intro st; exact stExt_refl fs st
  | cons r rs ih =>
    intro st
    simp only [processImports]
    exact stExt_trans (hstep _ st) (ih _)

lemma parseXmlFileF_stExt (fs : Fsys) :
    ∀ (fuel : Nat) (path : String) (st : ParseState),
      StExt fs st (parseXmlFileF fs fuel path st) := by
  intro fuel
  induction fuel with
  | zero => intro path st; exact stExt_refl fs st
  | succ g ih =>
    intro path st
    obtain ⟨info, processed⟩ := st
    simp only [parseXmlFileF]
    by_cases hc : processed.contains (pathResolve1 path) = true
    · rw [if_pos hc]; exact stExt_refl fs _
    · rw [if_neg hc]
      have hnp : pathResolve1 path ∉ processed :=
        fun h => hc (contains_eq_true_iff.mpr h)
      cases hr : readFile fs (pathResolve1 path) with
      | none =>
        simp only [parseFileBody, hr]
        refine ⟨List.suffix_cons _ _, fun h => List.nodup_cons.mpr ⟨hnp, h⟩, ?_⟩
        intro _
        exact ⟨rfl, [], by simp, by simp, id⟩
      | some content =>
        simp only [parseFileBody, hr]
        cases processed with
        | nil =>
          -- root call: project attributes may change the default target, but
          -- the third component of `StExt` is vacuous here
          refine ⟨List.nil_suffix, fun _ => ?_, fun hne => absurd rfl hne⟩
          exact (processImports_stExt (fun p s => ih p s) _ _ _).2.1
            (List.nodup_singleton _)
        | cons p0 ps =>
          have hlen : (((pathResolve1 path :: p0 :: ps).length == 1)) = false := by
            apply beq_eq_false_iff_ne.mpr
            simp only [List.length_cons]
            omega
          have hlen' : ¬ (((pathResolve1 path :: p0 :: ps).length == 1) = true) := by
            simp only [hlen]
            exact Bool.false_ne_true
          rw [if_neg hlen']
          obtain ⟨ext0, hext0, hor0⟩ :=
            foldPush_shape (extractTargets content.data) info
          have hAdd : StExt fs ⟨info, p0 :: ps⟩ ⟨info, pathResolve1 path :: p0 :: ps⟩ := by
            refine ⟨List.suffix_cons _ _, fun h => List.nodup_cons.mpr ⟨hnp, h⟩, ?_⟩
            intro _
            exact ⟨rfl, [], by simp, by simp, id⟩
          have hPush : StExt fs ⟨info, pathResolve1 path :: p0 :: ps⟩
              ⟨(extractTargets content.data).foldl pushTarget info,
                pathResolve1 path :: p0 :: ps⟩ := by
            refine ⟨List.suffix_refl _, id, ?_⟩
            intro _
            refine ⟨?_, ext0, ?_, ?_, ?_⟩
            · show ((extractTargets content.data).foldl pushTarget info).defaultTarget =
                info.defaultTarget
              rw [hext0]
            · show ((extractTargets content.data).foldl pushTarget info).targets =
                info.targets ++ ext0
              rw [hext0]
            · intro t ht
              obtain ⟨dd, hdd, he⟩ := hor0 t ht
              exact ⟨pathResolve1 path, content, dd, readFile_mem hr, hdd, he⟩
            · intro h
              exact foldPush_nodup (extractTargets content.data) info h
          exact stExt_trans hAdd (stExt_trans hPush
            (processImports_stExt (fun p s => ih p s) _ _ _))

/-! ## Fuel stabilisation: the walk terminates -/

lemma parseXmlFileF_succ (fs : Fsys) (fuel : Nat) (path : String) (st : ParseState) :
    parseXmlFileF fs (fuel + 1) path st =
      if st.processedFiles.contains (pathResolve1 path) then st
      else parseFileBody fs (fun p s => parseXmlFileF fs fuel p s) (pathResolve1 path)
        { st with processedFiles := pathResolve1 path :: st.processedFiles } := rfl

lemma freshCount_le_of_suffix {fs : Fsys} {s₁ s₂ : ParseState}
    (h : s₁.processedFiles <:+ s₂.processedFiles) :
    freshCount fs s₂ ≤ freshCount fs s₁ := by
  apply Finset.card_le_card
  intro k hk
  simp only [freshCount, Finset.mem_filter] at hk ⊢
  exact ⟨hk.1, fun hks₁ => hk.2 (h.subset hks₁)⟩

lemma freshCount_cons {fs : Fsys} {info info' : AntBuildInfo} {np : String}
    {processed : List String} (hk : np ∈ fs.map Prod.fst) (hnp : np ∉ processed) :
    freshCount fs ⟨info, processed⟩ = freshCount fs ⟨info', np :: processed⟩ + 1 := by
  have hset : (keysOf fs).filter (fun k => k ∉ np :: processed) =
      ((keysOf fs).filter (fun k => k ∉ processed)).erase np := by
    ext k
    simp only [Finset.mem_filter, Finset.mem_erase, List.mem_cons, not_or]
    constructor
    · rintro ⟨h1, h2, h3⟩; exact ⟨h2, h1, h3⟩
    · rintro ⟨h1, h2, h3⟩; exact ⟨h2, h1, h3⟩
  have hmem : np ∈ (keysOf fs).filter (fun k => k ∉ processed) :=
    Finset.mem_filter.mpr ⟨List.mem_toFinset.mpr hk, hnp⟩
  have hpos : 0 < ((keysOf fs).filter (fun k => k ∉ processed)).card :=
    Finset.card_pos.mpr ⟨np, hmem⟩
  have hcard := Finset.card_erase_of_mem hmem
  simp only [freshCount]
  rw [hset, hcard]
  omega

lemma stab_one (fs : Fsys) :
    ∀ (g : Nat) (path : String) (st : ParseState), freshCount fs st < g →
      parseXmlFileF fs (g + 1) path st = parseXmlFileF fs g path st := by
  intro g
  induction g with
  | zero => intro path st h; exact absurd h (Nat.not_lt_zero _)
  | succ g' ih =>
    intro path st h
    rw [parseXmlFileF_succ fs (g' + 1) path st, parseXmlFileF_succ fs g' path st]
    by_cases hc : st.processedFiles.contains (pathResolve1 path) = true
    · rw [if_pos hc, if_pos hc]
    · rw [if_neg hc, if_neg hc]
      have hnp : pathResolve1 path ∉ st.processedFiles :=
        fun hmem => hc (contains_eq_true_iff.mpr hmem)
      cases hr : readFile fs (pathResolve1 path) with
      | none => simp only [parseFileBody, hr]
      | some content =>
        simp only [parseFileBody, hr]
        have hkey : pathResolve1 path ∈ fs.map Prod.fst := readFile_key_mem hr
        have hdec := @freshCount_cons fs st.info st.info (pathResolve1 path)
          st.processedFiles hkey hnp
        have hstepfresh : ∀ info' : AntBuildInfo,
            freshCount fs ⟨info', pathResolve1 path :: st.processedFiles⟩ < g' := by
          intro info'
          have hcons := @freshCount_cons fs st.info info' (pathResolve1 path)
            st.processedFiles hkey hnp
          have hEq : freshCount fs ⟨st.info, st.processedFiles⟩ = freshCount fs st := rfl
          rw [hEq] at hcons
          omega
        have inner : ∀ (refs : List String) (s : ParseState),
            freshCount fs s < g' →
            processImports (fun p u => parseXmlFileF fs (g' + 1) p u)
              (pathDirname (pathResolve1 path)) refs s =
            processImports (fun p u => parseXmlFileF fs g' p u)
              (pathDirname (pathResolve1 path)) refs s := by
          intro refs
          induction refs with
          | nil => intro s _; rfl
          | cons r rs ihr =>
            intro s hs
            simp only [processImports]
            rw [ih _ s hs]
            apply ihr
            exact lt_of_le_of_lt
              (freshCount_le_of_suffix (parseXmlFileF_stExt fs g' _ s).1) hs
        apply inner
        obtain ⟨info, processed⟩ := st
        exact hstepfresh _

lemma stab_add (fs : Fsys) :
    ∀ (k fuel : Nat) (path : String) (st : ParseState), freshCount fs st < fuel →
      parseXmlFileF fs (fuel + k) path st = parseXmlFileF fs fuel path st := by
  intro k
  induction k with
  | zero => intro fuel path st _; rfl
  | succ k' ih =>
    intro fuel path st h
    have : fuel + (k' + 1) = (fuel + k') + 1 := rfl
    rw [this, stab_one fs (fuel + k') path st (lt_of_lt_of_le h (Nat.le_add_right _ _))]
    exact ih fuel path st h

lemma stab_any (fs : Fsys) (path : String) (st : ParseState) (f₁ f₂ : Nat)
    (h₁ : freshCount fs st < f₁) (h₂ : freshCount fs st < f₂) :
    parseXmlFileF fs f₁ path st = parseXmlFileF fs f₂ path st := by
  have e₁ : f₁ = (freshCount fs st + 1) + (f₁ - (freshCount fs st + 1)) := by omega
  have e₂ : f₂ = (freshCount fs st + 1) + (f₂ - (freshCount fs st + 1)) := by omega
  rw [e₁, e₂, stab_add fs _ _ path st (Nat.lt_succ_self _),
    stab_add fs _ _ path st (Nat.lt_succ_self _)]

lemma freshCount_init_le (fs : Fsys) (p : String) :
    freshCount fs (initState p) ≤ fs.length := by
  have h1 : freshCount fs (initState p) ≤ (keysOf fs).card :=
    Finset.card_le_card (Finset.filter_subset _ _)
  have h2 : (keysOf fs).card ≤ fs.length := by
    have := List.toFinset_card_le (fs.map Prod.fst)
    rw [List.length_map] at this
    exact this
  exact h1.trans h2

lemma parseWithXmlFuel_stab (fs : Fsys) (root : String) (f : Nat)
    (h : fs.length < f) : parseWithXmlFuel fs f root = parseWithXml fs root := by
  unfold parseWithXml parseWithXmlFuel preInfo
  rw [stab_any fs root (initState root) f (fs.length + 1)
    (lt_of_le_of_lt (freshCount_init_le fs root) h)
    (Nat.lt_succ_of_le (freshCount_init_le fs root))]

/-! ## The shape of a root parse -/

lemma applyProjectAttrs_targets (fd : String) (cs : List Char) (bi : AntBuildInfo) :
    (applyProjectAttrs fd cs bi).targets = bi.targets := by
  unfold applyProjectAttrs
  split
  · rfl
  · split <;> split <;> split <;> rfl

lemma preInfo_root_eq (fs : Fsys) (root content : String)
    (h : readFile fs (pathResolve1 root) = some content) :
    parseXmlFileF fs (fs.length + 1) root (initState root) =
      processImports (fun p s => parseXmlFileF fs fs.length p s)
        (pathDirname (pathResolve1 root)) (importRefs content.data)
        ⟨(extractTargets content.data).foldl pushTarget
            (applyProjectAttrs (pathDirname (pathResolve1 root)) content.data
              (initialInfo root)),
          [pathResolve1 root]⟩ := by
  rw [parseXmlFileF_succ]
  have hcf : ((initState root).processedFiles.contains (pathResolve1 root)) = false := rfl
  rw [if_neg (by rw [hcf]; exact Bool.false_ne_true)]
  simp only [parseFileBody, h, initState]
  rfl

lemma parseWithXml_read_none (fs : Fsys) (root : String)
    (h : readFile fs (pathResolve1 root) = none) :
    parseWithXml fs root = initialInfo root := by
  unfold parseWithXml parseWithXmlFuel preInfo
  rw [parseXmlFileF_succ]
  have hcf : ((initState root).processedFiles.contains (pathResolve1 root)) = false := rfl
  rw [if_neg (by rw [hcf]; exact Bool.false_ne_true)]
  simp only [parseFileBody, h, initState]
  rfl

lemma parseWithXml_root_shape (fs : Fsys) (root content : String)
    (h : readFile fs (pathResolve1 root) = some content) :
    ∃ ext : List AntTarget,
      (parseWithXml fs root).defaultTarget =
        (applyProjectAttrs (pathDirname (pathResolve1 root)) content.data
          (initialInfo root)).defaultTarget ∧
      List.Perm (parseWithXml fs root).targets
        (((extractTargets content.data).foldl pushTarget
            (applyProjectAttrs (pathDirname (pathResolve1 root)) content.data
              (initialInfo root))).targets ++ ext) ∧
      (∀ t ∈ ext, Origin fs
        (applyProjectAttrs (pathDirname (pathResolve1 root)) content.data
          (initialInfo root)).defaultTarget t) ∧
      ((((extractTargets content.data).foldl pushTarget
            (applyProjectAttrs (pathDirname (pathResolve1 root)) content.data
              (initialInfo root))).targets ++ ext).map AntTarget.name).Nodup := by
  have hPI := processImports_stExt
    (fun p s => parseXmlFileF_stExt fs fs.length p s)
    (pathDirname (pathResolve1 root)) (importRefs content.data)
    ⟨(extractTargets content.data).foldl pushTarget
        (applyProjectAttrs (pathDirname (pathResolve1 root)) content.data
          (initialInfo root)),
      [pathResolve1 root]⟩
  obtain ⟨hdflt, ext, htg, hor, hnod⟩ := hPI.2.2 (by simp)
  obtain ⟨e0, he0, _⟩ := foldPush_shape (extractTargets content.data)
    (applyProjectAttrs (pathDirname (pathResolve1 root)) content.data (initialInfo root))
  have hbase : ((extractTargets content.data).foldl pushTarget
      (applyProjectAttrs (pathDirname (pathResolve1 root)) content.data
        (initialInfo root))).defaultTarget =
      (applyProjectAttrs (pathDirname (pathResolve1 root)) content.data
        (initialInfo root)).defaultTarget := by
    rw [he0]
  have hpushNodup : ((((extractTargets content.data).foldl pushTarget
      (applyProjectAttrs (pathDirname (pathResolve1 root)) content.data
        (initialInfo root))).targets).map AntTarget.name).Nodup := by
    apply foldPush_nodup
    rw [applyProjectAttrs_targets]
    simp [initialInfo]
  refine ⟨ext, ?_, ?_, ?_, ?_⟩
  · show (parseWithXml fs root).defaultTarget = _
    have : (parseWithXml fs root).defaultTarget =
        (parseXmlFileF fs (fs.length + 1) root (initState root)).info.defaultTarget := rfl
    rw [this, preInfo_root_eq fs root content h, hdflt, hbase]
  · have : (parseWithXml fs root).targets =
        sortTargets (parseXmlFileF fs (fs.length + 1) root (initState root)).info.targets := rfl
    rw [this, preInfo_root_eq fs root content h, htg]
    exact sortTargets_perm _
  · intro t ht
    obtain ⟨p, c, dd, hmem, hdd, he⟩ := hor t ht
    exact ⟨p, c, dd, hmem, hdd, by rw [he, hbase]⟩
  · rw [← htg]
    exact hnod hpushNodup

lemma parseWithXml_origin (fs : Fsys) (root : String) :
    ∀ t ∈ (parseWithXml fs root).targets,
      Origin fs (parseWithXml fs root).defaultTarget t := by
  intro t ht
  cases hr : readFile fs (pathResolve1 root) with
  | none =>
    rw [parseWithXml_read_none fs root hr] at ht
    simp [initialInfo] at ht
  | some content =>
    obtain ⟨ext, hd, hperm, hor, _⟩ := parseWithXml_root_shape fs root content hr
    have ht' := hperm.mem_iff.mp ht
    rcases List.mem_append.mp ht' with hpush | hext
    · obtain ⟨e0, he0, hor0⟩ := foldPush_shape (extractTargets content.data)
        (applyProjectAttrs (pathDirname (pathResolve1 root)) content.data (initialInfo root))
      rw [he0] at hpush
      have hempty : (applyProjectAttrs (pathDirname (pathResolve1 root)) content.data
          (initialInfo root)).targets = [] := by
        rw [applyProjectAttrs_targets]; rfl
      simp only [hempty, List.nil_append] at hpush
      obtain ⟨dd, hdd, he⟩ := hor0 t hpush
      exact ⟨pathResolve1 root, content, dd, readFile_mem hr, hdd, by rw [he, hd]⟩
    · obtain ⟨p, c, dd, hmem, hdd, he⟩ := hor t hext
      exact ⟨p, c, dd, hmem, hdd, by rw [he, hd]⟩

lemma parseWithXml_isDefault (fs : Fsys) (root : String) :
    ∀ t ∈ (parseWithXml fs root).targets,
      t.isDefault = (t.name == (parseWithXml fs root).defaultTarget) := by
  intro t ht
  obtain ⟨p, c, dd, _, _, he⟩ := parseWithXml_origin fs root t ht
  rw [he]
  rfl

lemma parseWithXml_nodup (fs : Fsys) (root : String) :
    ((parseWithXml fs root).targets.map AntTarget.name).Nodup := by
  cases hr : readFile fs (pathResolve1 root) with
  | none =>
    rw [parseWithXml_read_none fs root hr]
    simp [initialInfo]
  | some content =>
    obtain ⟨ext, _, hperm, _, hnod⟩ := parseWithXml_root_shape fs root content hr
    exact ((hperm.map AntTarget.name).nodup_iff).mpr hnod

/-! ## Equivalence with the spec-worded import resolution -/

lemma processImports_eq_spec (recur₁ recur₂ : String → ParseState → ParseState)
    (hrec : ∀ p s, recur₁ p s = recur₂ p s) (dir : String) :
    ∀ (refs : List String) (st : ParseState),
      processImports recur₁ dir refs st = processImportsSpec recur₂ dir refs st := by
  intro refs
  induction refs with
  | nil => intro st; rfl
  | cons r rs ih =>
    intro st
    simp only [processImports, processImportsSpec]
    have hres : (if ¬ pathIsAbsolute r then pathResolve2 dir r else r) =
        specResolveImport dir r := by
      unfold specResolveImport
      by_cases h : pathIsAbsolute r = true
      · rw [if_neg (fun hh => hh h), if_pos h]
      · rw [if_pos h, if_neg h]
    rw [hres, hrec]
    exact ih _

lemma parseXmlFile_spec_eq (fs : Fsys) :
    ∀ (fuel : Nat) (path : String) (st : ParseState),
      parseXmlFileF fs fuel path st = parseXmlFileSpecF fs fuel path st := by
  intro fuel
  induction fuel with
  | zero => intro path st; rfl
  | succ g ih =>
    intro path st
    rw [parseXmlFileF_succ]
    simp only [parseXmlFileSpecF]
    by_cases hc : st.processedFiles.contains (pathResolve1 path) = true
    · rw [if_pos hc, if_pos hc]
    · rw [if_neg hc, if_neg hc]
      cases hr : readFile fs (pathResolve1 path) with
      | none => simp only [parseFileBody, hr]
      | some content =>
        simp only [parseFileBody, hr]
        exact processImports_eq_spec _ _ (fun p s => ih p s) _ _ _

/-! ## Lemmas about the cache and the facade -/

lemma cacheGet_put_fresh (cache : Cache) (p : String) (info : AntBuildInfo)
    (now now' : Nat) (h : now' - now < cacheTimeout) :
    cacheGet (cachePut cache p info now) now' p = some info := by
  unfold cacheGet cachePut
  rw [@List.find?_cons_of_pos _ (fun e => e.1 == p) (p, { info := info, timestamp := now })
    (cache.filter (fun e => ¬ e.1 = p)) (by simp)]
  simp only
  rw [if_pos h]

lemma parseBuildFile_miss_sets (spawn : String → SpawnOutcome)
    (decodeJson : String → Option AntBuildInfo) (fs : Fsys) (p : String)
    (cache : Cache) (now : Nat) (hmiss : cacheGet cache now p = none) :
    ∃ info, parseBuildFile spawn decodeJson fs p cache now =
      (info, cachePut cache p info now) := by
  unfold parseBuildFile
  rw [hmiss]
  cases parseWithJava spawn decodeJson p with
  | ok info => exact ⟨info, rfl⟩
  | error e => exact ⟨parseWithXml fs p, rfl⟩

lemma parseBuildFile_fallback (spawn : String → SpawnOutcome)
    (decodeJson : String → Option AntBuildInfo) (fs : Fsys) (p : String)
    (cache : Cache) (now : Nat) (e : String)
    (hmiss : cacheGet cache now p = none)
    (herr : parseWithJava spawn decodeJson p = .error e) :
    parseBuildFile spawn decodeJson fs p cache now =
      (parseWithXml fs p, cachePut cache p (parseWithXml fs p) now) := by
  unfold parseBuildFile
  rw [hmiss, herr]

lemma javaTierFails_error (spawn : String → SpawnOutcome)
    (decodeJson : String → Option AntBuildInfo) (p : String)
    (h : JavaTierFails spawn decodeJson p) :
    ∃ e, parseWithJava spawn decodeJson p = .error e := by
  rcases h with ⟨m, hm⟩ | ⟨code, out, err, hm, hc⟩ | ⟨out, err, hm, hd⟩
  · exact ⟨m, by simp only [parseWithJava, hm]⟩
  · refine ⟨"Java parser exited with code " ++ toString code ++ ": " ++ err, ?_⟩
    simp only [parseWithJava, hm]
    rw [if_pos hc]
  · refine ⟨"Failed to parse JSON output", ?_⟩
    simp only [parseWithJava, hm, hd]
    rw [if_neg (fun hh : (0 : Int) ≠ 0 => hh rfl)]

/-! ## Claim theorems -/

set_option maxRecDepth 100000

set_option maxHeartbeats 2000000

/-- C1: the spec claims that an unreadable root build file makes
`parseBuildFile` reject with a descriptive error and never resolve.  The
code instead swallows the read failure inside `parseXmlFile` (its warning
even labels the root an "imported file") and resolves with a
default-initialised descriptor: empty project name, empty default target,
no targets.  This theorem evaluates the code at such inputs. -/
theorem unreadable_root_resolves_with_default (fs : Fsys) (root : String)
    (spawn : String → SpawnOutcome) (decodeJson : String → Option AntBuildInfo)
    (cache : Cache) (now : Nat)
    (hread : readFile fs (pathResolve1 root) = none)
    (hmiss : cacheGet cache now root = none)
    (hjava : JavaTierFails spawn decodeJson root) :
    (parseBuildFile spawn decodeJson fs root cache now).1 = initialInfo root := by
  obtain ⟨e, herr⟩ := javaTierFails_error spawn decodeJson root hjava
  rw [parseBuildFile_fallback spawn decodeJson fs root cache now e hmiss herr]
  exact parseWithXml_read_none fs root hread

/-- Witness for C1: a missing `/build.xml` on an empty file system, a Java
tier that fails to launch, an empty cache — the facade resolves with the
default-initialised descriptor instead of rejecting. -/
theorem unreadable_root_resolves_with_default_witness :
    readFile ([] : Fsys) (pathResolve1 "/build.xml") = none ∧
    cacheGet ([] : Cache) 0 "/build.xml" = none ∧
    JavaTierFails spawnFailing decodeNone "/build.xml" ∧
    (parseBuildFile spawnFailing decodeNone [] "/build.xml" [] 0).1 =
      initialInfo "/build.xml" :=
  ⟨rfl, rfl, Or.inl ⟨"spawn java ENOENT", rfl⟩,
    unreadable_root_resolves_with_default [] "/build.xml" spawnFailing decodeNone
      [] 0 rfl rfl (Or.inl ⟨"spawn java ENOENT", rfl⟩)⟩

/-- C2: first-definition-wins merge.  For every file system and readable
root whose content declares a target named `n`, the parsed result contains
exactly one target of that name — the filtered list is the singleton built
from the FIRST declaration named `n` of the root content — so later
declarations, in the root or imported, are discarded. -/
theorem root_first_declaration_wins (fs : Fsys) (root content n : String)
    (hread : readFile fs (pathResolve1 root) = some content)
    (hn : n ∈ (extractTargets content.data).map TargetDecl.name) :
    ∃ dd : TargetDecl,
      (extractTargets content.data).find? (fun x => x.name == n) = some dd ∧
      (parseWithXml fs root).targets.filter (fun t => t.name == n) =
        [declToTarget (parseWithXml fs root).defaultTarget dd] := by
  have hsome : ((extractTargets content.data).find? (fun x => x.name == n)).isSome := by
    apply List.find?_isSome.mpr
    obtain ⟨x, hx, hxn⟩ := List.mem_map.mp hn
    exact ⟨x, hx, by simp [hxn]⟩
  obtain ⟨dd, hfind⟩ := Option.isSome_iff_exists.mp hsome
  have hddn : dd.name = n :=
    eq_of_beq (@List.find?_some _ (fun x => x.name == n) dd
      (extractTargets content.data) hfind)
  obtain ⟨ext, hd, hperm, _, _⟩ := parseWithXml_root_shape fs root content hread
  have hempty : n ∉ ((applyProjectAttrs (pathDirname (pathResolve1 root)) content.data
      (initialInfo root)).targets.map AntTarget.name) := by
    rw [applyProjectAttrs_targets]
    simp [initialInfo]
  have hmem0 := foldPush_mem_first (extractTargets content.data)
    (applyProjectAttrs (pathDirname (pathResolve1 root)) content.data (initialInfo root))
    n dd hfind hempty
  have hmem : declToTarget (parseWithXml fs root).defaultTarget dd ∈
      (parseWithXml fs root).targets := by
    rw [hd]
    exact hperm.mem_iff.mpr (List.mem_append.mpr (Or.inl hmem0))
  refine ⟨dd, hfind, ?_⟩
  have hfil := filter_name_eq_of_nodup (parseWithXml fs root).targets
    (declToTarget (parseWithXml fs root).defaultTarget dd)
    (parseWithXml_nodup fs root) hmem
  have hkey : (declToTarget (parseWithXml fs root).defaultTarget dd).name = n := hddn
  rw [← hkey]
  exact hfil

/-- Witness for C2: file A declares `compile` (deps `x, y`, description
"root compile") and imports B, which re-declares `compile`; the result
keeps exactly A's `compile`. -/
theorem root_first_declaration_wins_witness :
    readFile fsMerge (pathResolve1 "/w/a.xml") = some contentA ∧
    "compile" ∈ (extractTargets contentA.data).map TargetDecl.name ∧
    ∃ dd : TargetDecl,
      (extractTargets contentA.data).find? (fun x => x.name == "compile") = some dd ∧
      (parseWithXml fsMerge "/w/a.xml").targets.filter (fun t => t.name == "compile") =
        [declToTarget (parseWithXml fsMerge "/w/a.xml").defaultTarget dd] :=
  ⟨by decide, by decide,
    root_first_declaration_wins fsMerge "/w/a.xml" contentA "compile" (by decide) (by decide)⟩

/-- C3 counterexample: a target declared with `depends=""` is parsed with
dependency list `[""]` — one empty-string dependency, produced by
JavaScript's `"".split(',')` — not the empty list the claim states. -/
theorem empty_depends_yields_singleton :
    (extractTargets contentDeps.data).map TargetDecl.depends = [some ""] ∧
    (parseWithXml fsDeps "/d/build.xml").targets =
      [AntTarget.mk "t" none [""] none none false] ∧
    ¬ (([""] : List String) = []) := by
  refine ⟨by decide, by decide, by simp⟩

/-- C3 amended: every parsed target's dependency list is obtained from its
source declaration's `depends` attribute by `split(',')` then `trim` (in
order); an absent attribute gives `[]`, and the empty string gives `[""]`
(a single empty name), not `[]`. -/
theorem dependencies_split_from_declaration (fs : Fsys) (root : String)
    (t : AntTarget) (ht : t ∈ (parseWithXml fs root).targets) :
    ∃ p c dd, (p, c) ∈ fs ∧ dd ∈ extractTargets c.data ∧ t.name = dd.name ∧
      t.dependencies = depsOfAttr dd.depends := by
  obtain ⟨p, c, dd, hm, hdd, he⟩ := parseWithXml_origin fs root t ht
  exact ⟨p, c, dd, hm, hdd, by rw [he]; rfl, by rw [he]; rfl⟩

/-- Witness for C3's amended claim at the `depends=""` fixture. -/
theorem dependencies_split_from_declaration_witness :
    AntTarget.mk "t" none [""] none none false ∈
      (parseWithXml fsDeps "/d/build.xml").targets ∧
    ∃ p c dd, (p, c) ∈ fsDeps ∧ dd ∈ extractTargets c.data ∧
      (AntTarget.mk "t" none [""] none none false).name = dd.name ∧
      (AntTarget.mk "t" none [""] none none false).dependencies =
        depsOfAttr dd.depends :=
  ⟨by decide, dependencies_split_from_declaration fsDeps "/d/build.xml" _ (by decide)⟩

/-- C4 counterexample: the code sorts with `localeCompare`, which is
locale-aware, not ordinal: for targets named `B` and `a` the result order
is `["a", "B"]`, while code-point comparison would order `"B"` first —
`ordinalLe "a" "B"` is false, so this adjacent pair violates the claim. -/
theorem sort_not_ordinal :
    (parseWithXml fsC4 "/c4.xml").targets.map AntTarget.name = ["a", "B"] ∧
    ordinalLe "a" "B" = false := by
  exact ⟨by decide, by decide⟩

/-- C4 amended: the returned targets are sorted by the locale-aware
`localeCompare` order (modelled for ASCII: case-insensitive primary
comparison, lowercase before uppercase at equal primary key), not by
code-point order. -/
theorem targets_sorted_by_locale (fs : Fsys) (root : String) :
    ((parseWithXml fs root).targets).Pairwise
      (fun a b => localeLe a.name b.name = true) :=
  sortTargets_pairwise (preInfo fs (fs.length + 1) root).targets

/-- C5: the recursive walk terminates on every import graph, cyclic ones
included: its result is the same for every fuel beyond the number of files
(so the unbounded recursion it models is well defined), and the visited-set
never records a file twice. -/
theorem fallback_walk_terminates (fs : Fsys) (root : String) (f₁ f₂ : Nat)
    (h₁ : fs.length < f₁) (h₂ : fs.length < f₂) :
    parseWithXmlFuel fs f₁ root = parseWithXmlFuel fs f₂ root ∧
    parseWithXmlFuel fs f₁ root = parseWithXml fs root ∧
    (parseXmlFileF fs f₁ root (initState root)).processedFiles.Nodup := by
  refine ⟨?_, parseWithXmlFuel_stab fs root f₁ h₁, ?_⟩
  · rw [parseWithXmlFuel_stab fs root f₁ h₁, parseWithXmlFuel_stab fs root f₂ h₂]
  · exact (parseXmlFileF_stExt fs f₁ root (initState root)).2.1 List.nodup_nil

/-- Witness for C5: a two-file import cycle (A imports B imports A); the
walk returns the same result at fuel 3 and fuel 10, and both targets are
found with each file visited once. -/
theorem fallback_walk_terminates_witness :
    fsCyc.length < 3 ∧ fsCyc.length < 10 ∧
    (parseWithXmlFuel fsCyc 3 "/x/a.xml" = parseWithXmlFuel fsCyc 10 "/x/a.xml" ∧
      parseWithXmlFuel fsCyc 3 "/x/a.xml" = parseWithXml fsCyc "/x/a.xml" ∧
      (parseXmlFileF fsCyc 3 "/x/a.xml" (initState "/x/a.xml")).processedFiles.Nodup) ∧
    (parseWithXml fsCyc "/x/a.xml").targets.map AntTarget.name = ["ta", "tb"] :=
  ⟨by decide, by decide,
    fallback_walk_terminates fsCyc "/x/a.xml" 3 10 (by decide) (by decide),
    by decide⟩

/-- C6: cache idempotence.  After a miss-driven call at time `now`, a second
call for the same path within the time-to-live returns exactly the first
call's descriptor and leaves the cache unchanged — and it does so for EVERY
subprocess behaviour, decoder and file system, which is the observational
statement that neither parser tier is invoked again. -/
theorem cache_hit_within_ttl (spawn spawn' : String → SpawnOutcome)
    (decodeJson decodeJson' : String → Option AntBuildInfo) (fs fs' : Fsys)
    (p : String) (cache : Cache) (now now' : Nat)
    (hmiss : cacheGet cache now p = none)
    (hfresh : now' - now < cacheTimeout) :
    parseBuildFile spawn' decodeJson' fs' p
        (parseBuildFile spawn decodeJson fs p cache now).2 now' =
      parseBuildFile spawn decodeJson fs p cache now := by
  obtain ⟨info, heq⟩ := parseBuildFile_miss_sets spawn decodeJson fs p cache now hmiss
  rw [heq]
  simp only [parseBuildFile, cacheGet_put_fresh cache p info now now' hfresh]

/-- Witness for C6: concrete first call at time 0 (Java tier failing, so the
fallback parses file A), second call at time 100 with a DIFFERENT (empty)
file system still returns the same pair. -/
theorem cache_hit_within_ttl_witness :
    cacheGet ([] : Cache) 0 "/w/a.xml" = none ∧
    (100 : Nat) - 0 < cacheTimeout ∧
    parseBuildFile spawnFailing decodeNone [] "/w/a.xml"
        (parseBuildFile spawnFailing decodeNone fsMerge "/w/a.xml" [] 0).2 100 =
      parseBuildFile spawnFailing decodeNone fsMerge "/w/a.xml" [] 0 :=
  ⟨rfl, by decide,
    cache_hit_within_ttl spawnFailing spawnFailing decodeNone decodeNone fsMerge []
      "/w/a.xml" [] 0 100 rfl (by decide)⟩

/-- C7: whenever the Java tier fails — launch error, non-zero exit, or
undecodable output — the descriptor `parseBuildFile` returns (on a cache
miss) is exactly what the fallback text parser alone produces for the same
path; no partial structured result is ever returned. -/
theorem java_failure_uses_fallback (spawn : String → SpawnOutcome)
    (decodeJson : String → Option AntBuildInfo) (fs : Fsys) (p : String)
    (cache : Cache) (now : Nat)
    (hmiss : cacheGet cache now p = none)
    (hfail : JavaTierFails spawn decodeJson p) :
    (parseBuildFile spawn decodeJson fs p cache now).1 = parseWithXml fs p := by
  obtain ⟨e, herr⟩ := javaTierFails_error spawn decodeJson p hfail
  rw [parseBuildFile_fallback spawn decodeJson fs p cache now e hmiss herr]

/-- Witness for C7: a launch failure over the two-file fixture. -/
theorem java_failure_uses_fallback_witness :
    cacheGet ([] : Cache) 0 "/w/a.xml" = none ∧
    JavaTierFails spawnFailing decodeNone "/w/a.xml" ∧
    (parseBuildFile spawnFailing decodeNone fsMerge "/w/a.xml" [] 0).1 =
      parseWithXml fsMerge "/w/a.xml" :=
  ⟨rfl, Or.inl ⟨"spawn java ENOENT", rfl⟩,
    java_failure_uses_fallback spawnFailing decodeNone fsMerge "/w/a.xml" [] 0 rfl
      (Or.inl ⟨"spawn java ENOENT", rfl⟩)⟩

/-- C8 counterexample: a project whose `<project>` element has NO `default`
attribute leaves the resolved default target as the empty string; a target
declared with `name=""` then matches it, so ONE target is returned with
`isDefault = true` — not zero as the claim states for an absent attribute. -/
theorem absent_default_with_empty_name_target :
    (findProjectAttrs contentC8.data).map (fun attrs => matchAttr "default".data attrs) =
      some none ∧
    (parseWithXml fsC8 "/e/build.xml").defaultTarget = "" ∧
    ((parseWithXml fsC8 "/e/build.xml").targets.filter (fun t => t.isDefault)).length = 1 := by
  exact ⟨by decide, by decide, by decide⟩

/-- C8 amended: in every fallback result, target names are unique, a record
has `isDefault = true` iff its name equals the resolved `defaultTarget`
(hence at most one default), and when `defaultTarget` names no target in
the result no record is default.  When the `default` attribute is absent
the resolved default is the empty string, so a target explicitly named `""`
— and only it — is marked default. -/
theorem default_target_invariant (fs : Fsys) (root : String) :
    ((parseWithXml fs root).targets.map AntTarget.name).Nodup ∧
    (∀ t ∈ (parseWithXml fs root).targets,
      t.isDefault = (t.name == (parseWithXml fs root).defaultTarget)) ∧
    (∀ t₁ ∈ (parseWithXml fs root).targets, ∀ t₂ ∈ (parseWithXml fs root).targets,
      t₁.isDefault = true → t₂.isDefault = true → t₂ = t₁) ∧
    ((parseWithXml fs root).defaultTarget ∉
        (parseWithXml fs root).targets.map AntTarget.name →
      ∀ t ∈ (parseWithXml fs root).targets, t.isDefault = false) := by
  refine ⟨parseWithXml_nodup fs root, parseWithXml_isDefault fs root, ?_, ?_⟩
  · intro t₁ h₁ t₂ h₂ hd₁ hd₂
    have e₁ := parseWithXml_isDefault fs root t₁ h₁
    have e₂ := parseWithXml_isDefault fs root t₂ h₂
    rw [hd₁] at e₁
    rw [hd₂] at e₂
    have hn₁ : t₁.name = (parseWithXml fs root).defaultTarget := eq_of_beq e₁.symm
    have hn₂ : t₂.name = (parseWithXml fs root).defaultTarget := eq_of_beq e₂.symm
    exact eq_of_name_eq_of_nodup (parseWithXml_nodup fs root) h₁ h₂ (hn₂.trans hn₁.symm)
  · intro hnd t ht
    have e := parseWithXml_isDefault fs root t ht
    have hne : (t.name == (parseWithXml fs root).defaultTarget) = false :=
      beq_eq_false_iff_ne.mpr
        (fun h => hnd (List.mem_map.mpr ⟨t, ht, h⟩))
    rw [e, hne]

/-- Witness for C8's amended claim: the winning `compile` target of the
merge fixture is marked default exactly because its name equals the
resolved default target. -/
theorem default_target_invariant_witness :
    AntTarget.mk "compile" (some "root compile") ["x", "y"] none none true ∈
      (parseWithXml fsMerge "/w/a.xml").targets ∧
    (AntTarget.mk "compile" (some "root compile") ["x", "y"] none none true).isDefault =
      ((AntTarget.mk "compile" (some "root compile") ["x", "y"] none none true).name ==
        (parseWithXml fsMerge "/w/a.xml").defaultTarget) :=
  ⟨by decide, (default_target_invariant fsMerge "/w/a.xml").2.1 _ (by decide)⟩

/-- C9: relative import references are resolved against the importing
file's own directory.  First conjunct: the walk equals, on every input, the
variant whose import step is the spec-worded `specResolveImport` applied to
the current file's directory.  Second conjunct: in the nested fixture the
reference `b.xml` inside `/a/sub/mid.xml` loads `/a/sub/b.xml` (target
`deep`), not the root-adjacent decoy `/a/b.xml` (target `wrong`). -/
theorem import_resolution_current_directory :
    (∀ (fs : Fsys) (fuel : Nat) (path : String) (st : ParseState),
      parseXmlFileF fs fuel path st = parseXmlFileSpecF fs fuel path st) ∧
    (parseWithXml fsNested "/a/build.xml").targets.map AntTarget.name = ["deep"] :=
  ⟨fun fs fuel path st => parseXmlFile_spec_eq fs fuel path st, by decide⟩

/-- C10: a target declared with an explicitly empty `name` attribute is not
excluded: with no `default` attribute on the project element the resolved
default target is the empty string, and the empty-named record is returned
with `isDefault = true`. -/
theorem empty_name_target_recorded :
    parseWithXml fsC10 "/c10.xml" =
      AntBuildInfo.mk "p" "" "/" none "/c10.xml"
        [AntTarget.mk "" none [] none none true] := by
  decide

end AntManager
